import Mathlib

/-!
Verification development for the wallet-factory repository (Rust).

The five source files (cli.rs, wallet.rs, generator.rs, main.rs, lib.rs)
are shallowly embedded below.  Pure string/byte manipulation done by the
program itself (hex rendering, decimal rendering of the derivation index,
range partitioning, the per-index generation loops, the orchestrator's
flat-map collection, the count cap in main) is translated directly from
the source.  Calls into external cryptographic libraries (tiny_hderive's
key derivation, secp256k1's SecretKey/PublicKey, the sha2/sha3/ripemd
hash crates, the bech32 and base64 encoders) are modelled as components
of an explicit `Prims` record that every embedded function takes as an
argument; theorems quantify over that record, adding only the interface
facts the libraries guarantee (for example, that RIPEMD-160 digests are
20 bytes long) as explicit hypotheses.
-/

namespace WalletGen

/-- Bytes of the Rust program are modelled as `Fin 256`. -/
abbrev Byte := Fin 256

/-- Embedding of cli.rs `enum KeyType { Secp256k1, Ethsecp256k1 }`. -/
inductive KeyType where
  | secp256k1
  | ethsecp256k1
deriving DecidableEq, Repr

/-- Embedding of wallet.rs `struct Wallet` (field names as in the Rust
struct; serde renames are irrelevant to the claims). -/
structure Wallet where
  address : String
  evm_address : Option String
  pubkey : String
  private_key : String
  derivation_path : String
deriving DecidableEq, Repr

/-- The sixteen lowercase hex characters, in the order used by Rust's
hex crate. -/
def HEX_CHARS : List Char := "0123456789abcdef".data

/-- One hex character for a value below 16. -/
def hexDigitChar (d : Fin 16) : Char := HEX_CHARS.getD d.val '0'

/-- The two lowercase hex characters of one byte, high nibble first.
Models how hex::encode renders a single byte. -/
def hexEncodeByte (b : Byte) : List Char :=
  [hexDigitChar ⟨b.val / 16, by have := b.isLt; omega⟩,
   hexDigitChar ⟨b.val % 16, Nat.mod_lt _ (by decide)⟩]

/-- Characters of the lowercase hex rendering of a byte string. -/
def hexEncodeChars (bs : List Byte) : List Char := bs.flatMap hexEncodeByte

/-- Embedding of hex::encode : lowercase hex, two characters per byte,
no 0x. -/
def hexEncode (bs : List Byte) : String := String.mk (hexEncodeChars bs)

/-- Value of one hex character (lowercase), none for a non-hex character.
Models the per-character table of hex::decode. -/
def hexDigitVal (c : Char) : Option (Fin 16) :=
  if c = '0' then some 0 else if c = '1' then some 1
  else if c = '2' then some 2 else if c = '3' then some 3
  else if c = '4' then some 4 else if c = '5' then some 5
  else if c = '6' then some 6 else if c = '7' then some 7
  else if c = '8' then some 8 else if c = '9' then some 9
  else if c = 'a' then some 10 else if c = 'b' then some 11
  else if c = 'c' then some 12 else if c = 'd' then some 13
  else if c = 'e' then some 14 else if c = 'f' then some 15
  else none

/-- Decoding of a hex character list, two characters per byte.  Models
hex::decode on the character level. -/
def hexDecodeChars : List Char → Option (List Byte)
  | [] => some []
  | [_] => none
  | c1 :: c2 :: cs =>
    match hexDigitVal c1, hexDigitVal c2, hexDecodeChars cs with
    | some h, some l, some rest =>
      some (⟨h.val * 16 + l.val, by have := h.isLt; have := l.isLt; omega⟩ :: rest)
    | _, _, _ => none

/-- Embedding of hex::decode. -/
def hexDecode (s : String) : Option (List Byte) := hexDecodeChars s.data

/-- Decimal digit characters of a natural number, most significant first,
with an explicit structural fuel.  Models Rust's Display formatting of a
usize inside format!. -/
def decDigitsAux : Nat → Nat → List Char
  | 0, _ => []
  | fuel + 1, n =>
    if n < 10 then [Nat.digitChar n]
    else decDigitsAux fuel (n / 10) ++ [Nat.digitChar (n % 10)]

/-- Decimal rendering of a natural number, as Rust's Display for usize
prints it (so 0 prints as "0"). -/
def natToDec (n : Nat) : String := String.mk (decDigitsAux (n + 1) n)

/-- Embedding of the derivation path format string of generator.rs:
format!("m/44'/118'/0'/0/{}", index). -/
def pathString (index : Nat) : String := "m/44'/118'/0'/0/" ++ natToDec index

theorem hexDigitVal_hexDigitChar : ∀ d : Fin 16, hexDigitVal (hexDigitChar d) = some d := by
  decide

theorem hexDecodeChars_hexEncodeChars (bs : List Byte) :
    hexDecodeChars (hexEncodeChars bs) = some bs := by
  induction bs with
  | nil => rfl
  | cons b bs ih =>
    show hexDecodeChars (hexEncodeByte b ++ hexEncodeChars bs) = some (b :: bs)
    simp only [hexEncodeByte, List.cons_append, List.nil_append, List.append_eq,
      hexDecodeChars, hexDigitVal_hexDigitChar, ih]
    refine congrArg some (List.cons_eq_cons.mpr ⟨Fin.ext ?_, rfl⟩)
    show b.val / 16 * 16 + b.val % 16 = b.val
    omega

theorem hexDecode_hexEncode (bs : List Byte) : hexDecode (hexEncode bs) = some bs :=
  hexDecodeChars_hexEncodeChars bs

theorem hexEncodeChars_length (bs : List Byte) :
    (hexEncodeChars bs).length = 2 * bs.length := by
  induction bs with
  | nil => rfl
  | cons b bs ih =>
    show (hexEncodeByte b ++ hexEncodeChars bs).length = 2 * (bs.length + 1)
    simp [hexEncodeByte, ih]
    omega

theorem hexEncode_length (bs : List Byte) : (hexEncode bs).length = 2 * bs.length :=
  hexEncodeChars_length bs

theorem hexDigitChar_mem : ∀ d : Fin 16, hexDigitChar d ∈ HEX_CHARS := by
  decide

theorem hexEncodeChars_mem (bs : List Byte) :
    ∀ c ∈ hexEncodeChars bs, c ∈ HEX_CHARS := by
  induction bs with
  | nil => intro c hc; cases hc
  | cons b bs ih =>
    intro c hc
    have hc' : c ∈ hexEncodeByte b ++ hexEncodeChars bs := hc
    rcases List.mem_append.mp hc' with h | h
    · simp only [hexEncodeByte, List.mem_cons, List.not_mem_nil, or_false] at h
      rcases h with h | h <;> (subst h; exact hexDigitChar_mem _)
    · exact ih c h

/-- Decimal value of a digit character. -/
def decCharVal (c : Char) : Nat := c.toNat - 48

/-- Value of a most-significant-first decimal digit character list. -/
def decVal (cs : List Char) : Nat := cs.foldl (fun acc c => 10 * acc + decCharVal c) 0

theorem decVal_append_singleton (l : List Char) (c : Char) :
    decVal (l ++ [c]) = 10 * decVal l + decCharVal c := by
  simp [decVal, List.foldl_append]

theorem decCharVal_digitChar : ∀ n < 10, decCharVal (Nat.digitChar n) = n := by
  decide

theorem decVal_decDigitsAux : ∀ fuel n, n < fuel → decVal (decDigitsAux fuel n) = n := by
  intro fuel
  induction fuel with
  | zero => intro n h; omega
  | succ fuel ih =>
    intro n h
    by_cases h10 : n < 10
    · simp only [decDigitsAux, if_pos h10]
      show 10 * 0 + decCharVal (Nat.digitChar n) = n
      rw [decCharVal_digitChar n h10]
      omega
    · simp only [decDigitsAux, if_neg h10]
      rw [decVal_append_singleton]
      have hdiv : n / 10 < fuel := by
        have : n / 10 < n := Nat.div_lt_self (by omega) (by omega)
        omega
      rw [ih (n / 10) hdiv, decCharVal_digitChar (n % 10) (by omega)]
      omega

theorem natToDec_inj {m n : Nat} (h : natToDec m = natToDec n) : m = n := by
  have hd : decDigitsAux (m + 1) m = decDigitsAux (n + 1) n := by
    have := congrArg String.data h
    simpa [natToDec] using this
  have hm := decVal_decDigitsAux (m + 1) m (Nat.lt_succ_self m)
  have hn := decVal_decDigitsAux (n + 1) n (Nat.lt_succ_self n)
  rw [← hm, ← hn, hd]

theorem pathString_inj {i j : Nat} (h : pathString i = pathString j) : i = j := by
  apply natToDec_inj
  have hd := congrArg String.data h
  simp only [pathString, String.data_append] at hd
  have h2 := List.append_cancel_left hd
  cases hni : natToDec i with
  | mk di =>
    cases hnj : natToDec j with
    | mk dj =>
      rw [hni, hnj] at h2
      simp only at h2
      rw [h2]

/-- Interface to the external cryptographic libraries the program calls.
Each field models one library entry point used by generator.rs:
derive models tiny_hderive ExtendedPrivKey::derive followed by .secret()
(none models its Err, which per the spec covers an intermediate or final
scalar that is zero or at least the curve order); fromSlice models
whether secp256k1 SecretKey::from_slice succeeds; pubCompressed and
pubUncompressed model PublicKey::from_secret_key followed by serialize /
serialize_uncompressed; sha256, ripemd160 and keccak256 model the digest
crates; base64 models the STANDARD base64 engine's encode; hrpParse
models bech32 Hrp::parse (none = invalid human-readable part); and
bech32Encode models bech32::encode with the Bech32 checksum. -/
structure Prims where
  derive : List Byte → String → Option (List Byte)
  fromSlice : List Byte → Bool
  pubCompressed : List Byte → List Byte
  pubUncompressed : List Byte → List Byte
  sha256 : List Byte → List Byte
  ripemd160 : List Byte → List Byte
  keccak256 : List Byte → List Byte
  base64 : List Byte → String
  hrpParse : String → Option String
  bech32Encode : String → List Byte → Option String

/-- Library well-formedness used where generator.rs writes
SecretKey::from_slice(..).expect("Invalid key"): every private key that
tiny_hderive hands back is a valid secp256k1 scalar, so from_slice
succeeds on it. -/
def DeriveWF (P : Prims) (seed : List Byte) : Prop :=
  ∀ path k, P.derive seed path = some k → P.fromSlice k = true

/-- Loop body of generate_secp256k1_batch (generator.rs lines 94-121) for
one index.  Outer none models a panic of the expect on
SecretKey::from_slice; some none models an index that produces no wallet
(derivation Err, or bech32 encode Err); some (some w) a pushed wallet. -/
def secpBody (P : Prims) (seed : List Byte) (hrp : String) (index : Nat) :
    Option (Option Wallet) :=
  let path := pathString index
  match P.derive seed path with
  | none => some none
  | some private_key =>
    if P.fromSlice private_key = true then
      let pubkey_compressed := P.pubCompressed private_key
      let pubkey_base64 := P.base64 pubkey_compressed
      let private_key_hex := hexEncode private_key
      let sha256_hash := P.sha256 pubkey_compressed
      let ripemd_hash := P.ripemd160 sha256_hash
      match P.bech32Encode hrp ripemd_hash with
      | some cosmos_addr =>
        some (some { address := cosmos_addr, evm_address := none,
                     pubkey := pubkey_base64, private_key := private_key_hex,
                     derivation_path := path })
      | none => some none
    else none

/-- Loop body of generate_ethsecp256k1_batch (generator.rs lines 145-175)
for one index, with the same outer/inner Option convention as secpBody. -/
def ethBody (P : Prims) (seed : List Byte) (hrp : String) (index : Nat) :
    Option (Option Wallet) :=
  let path := pathString index
  match P.derive seed path with
  | none => some none
  | some private_key =>
    if P.fromSlice private_key = true then
      let pubkey_compressed := P.pubCompressed private_key
      let pubkey_base64 := P.base64 pubkey_compressed
      let private_key_hex := hexEncode private_key
      let pubkey_uncompressed := P.pubUncompressed private_key
      let keccak_hash := P.keccak256 (pubkey_uncompressed.drop 1)
      let address_bytes := keccak_hash.drop 12
      match P.bech32Encode hrp address_bytes with
      | some cosmos_addr =>
        let evm_addr := "0x" ++ hexEncode address_bytes
        some (some { address := cosmos_addr, evm_address := some evm_addr,
                     pubkey := pubkey_base64, private_key := private_key_hex,
                     derivation_path := path })
      | none => some none
    else none

/-- Sequential for-loop of a batch function over a list of indices,
collecting pushed wallets in order.  A body panic (outer none) destroys
the whole batch, exactly as a Rust panic would. -/
def batchLoop (body : Nat → Option (Option Wallet)) : List Nat → Option (List Wallet)
  | [] => some []
  | i :: is =>
    match body i, batchLoop body is with
    | none, _ => none
    | some _, none => none
    | some none, some rest => some rest
    | some (some w), some rest => some (w :: rest)

/-- Embedding of generate_secp256k1_batch (generator.rs lines 83-131):
parse the human-readable part (expect = panic = none on failure), then
run the loop over indices start_index..start_index+count.  The progress
counter does not influence the returned wallets and is modelled
separately by progress_added. -/
def generate_secp256k1_batch (P : Prims) (seed : List Byte)
    (start_index count : Nat) (pre : String) : Option (List Wallet) :=
  match P.hrpParse pre with
  | none => none
  | some hrp => batchLoop (secpBody P seed hrp) (List.range' start_index count)

/-- Embedding of generate_ethsecp256k1_batch (generator.rs lines 134-185). -/
def generate_ethsecp256k1_batch (P : Prims) (seed : List Byte)
    (start_index count : Nat) (pre : String) : Option (List Wallet) :=
  match P.hrpParse pre with
  | none => none
  | some hrp => batchLoop (ethBody P seed hrp) (List.range' start_index count)

/-- Embedding of generate_wallets_batch (generator.rs lines 68-80). -/
def generate_wallets_batch (P : Prims) (seed : List Byte)
    (start_index count : Nat) (pre : String) (key_type : KeyType) :
    Option (List Wallet) :=
  match key_type with
  | .secp256k1 => generate_secp256k1_batch P seed start_index count pre
  | .ethsecp256k1 => generate_ethsecp256k1_batch P seed start_index count pre

/-- Total amount a batch of the given count adds to the shared progress
counter: fetch_add(1000) at every loop iteration whose relative index i
satisfies i % 1000 == 0 (generator.rs lines 123-125 and 177-179), plus
fetch_add(count % 1000) once after the loop (lines 129 and 183). -/
def progress_added (count : Nat) : Nat :=
  ((List.range count).filter (fun i => i % 1000 == 0)).length * 1000 + count % 1000

/-- Embedding of main.rs line 129: ceil division of the requested count
over the thread count. -/
def wallets_per_thread (count num_threads : Nat) : Nat :=
  (count + num_threads - 1) / num_threads

/-- Embedding of main.rs line 138: start_idx of one worker. -/
def worker_start (count num_threads thread_id : Nat) : Nat :=
  thread_id * wallets_per_thread count num_threads

/-- Embedding of main.rs lines 139-143: range length of one worker
(Nat subtraction is Rust's saturating_sub). -/
def worker_count (count num_threads thread_id : Nat) : Nat :=
  if thread_id = num_threads - 1 then
    count - worker_start count num_threads thread_id
  else
    min (wallets_per_thread count num_threads)
      (count - worker_start count num_threads thread_id)

/-- One worker's task (main.rs lines 137-149): an empty range produces
Vec::new() without calling the batch function. -/
def workerJob (P : Prims) (seed : List Byte) (count num_threads : Nat)
    (pre : String) (key_type : KeyType) (thread_id : Nat) : Option (List Wallet) :=
  if worker_count count num_threads thread_id = 0 then some []
  else generate_wallets_batch P seed (worker_start count num_threads thread_id)
    (worker_count count num_threads thread_id) pre key_type

/-- Order-preserving collection of the workers' outputs, as rayon's
indexed into_par_iter().flat_map(..).collect() concatenates them in
worker-index order; a panic in any worker (none) fails the whole run. -/
def collectJobs (job : Nat → Option (List Wallet)) : List Nat → Option (List Wallet)
  | [] => some []
  | t :: ts =>
    match job t, collectJobs job ts with
    | none, _ => none
    | some _, none => none
    | some ws, some rest => some (ws ++ rest)

/-- Embedding of the orchestrator (main.rs lines 135-151): all wallets,
collected over workers 0..num_threads in worker-index order. -/
def all_wallets (P : Prims) (seed : List Byte) (count num_threads : Nat)
    (pre : String) (key_type : KeyType) : Option (List Wallet) :=
  collectJobs (workerJob P seed count num_threads pre key_type)
    (List.range num_threads)

/-- The concatenation, in worker-index order, of the index ranges the
orchestrator assigns to its workers. -/
def partitionIndices (count num_threads : Nat) : List Nat :=
  (List.range num_threads).flatMap
    (fun t => List.range' (worker_start count num_threads t) (worker_count count num_threads t))

/-- Error type of generate_addresses; its source returns anyhow errors
produced by the fallible library calls it propagates with the question
mark operator.  invalidHrp models the error of bech32 Hrp::parse (the
source's InvalidPrefix configuration error). -/
inductive EncodeError where
  | invalidKey
  | invalidHrp
  | encodeFailure
deriving DecidableEq, Repr

/-- Embedding of generate_addresses (generator.rs lines 22-66): the
standalone encoder returning (bech32 address, optional evm address,
base64 pubkey, hex private key) or an error value. -/
def generate_addresses (P : Prims) (private_key : List Byte) (pre : String)
    (key_type : KeyType) : Except EncodeError (String × Option String × String × String) :=
  if P.fromSlice private_key = true then
    let private_key_hex := hexEncode private_key
    match key_type with
    | .secp256k1 =>
      let pubkey_compressed := P.pubCompressed private_key
      let pubkey_base64 := P.base64 pubkey_compressed
      let sha256_hash := P.sha256 pubkey_compressed
      let ripemd_hash := P.ripemd160 sha256_hash
      match P.hrpParse pre with
      | none => Except.error EncodeError.invalidHrp
      | some hrp =>
        match P.bech32Encode hrp ripemd_hash with
        | none => Except.error EncodeError.encodeFailure
        | some cosmos_addr => Except.ok (cosmos_addr, none, pubkey_base64, private_key_hex)
    | .ethsecp256k1 =>
      let pubkey_compressed := P.pubCompressed private_key
      let pubkey_base64 := P.base64 pubkey_compressed
      let pubkey_uncompressed := P.pubUncompressed private_key
      let keccak_hash := P.keccak256 (pubkey_uncompressed.drop 1)
      let address_bytes := keccak_hash.drop 12
      match P.hrpParse pre with
      | none => Except.error EncodeError.invalidHrp
      | some hrp =>
        match P.bech32Encode hrp address_bytes with
        | none => Except.error EncodeError.encodeFailure
        | some cosmos_addr =>
          let evm_addr := "0x" ++ hexEncode address_bytes
          Except.ok (cosmos_addr, some evm_addr, pubkey_base64, private_key_hex)
  else Except.error EncodeError.invalidKey

/-- Embedding of main.rs line 20. -/
def MAX_WALLETS : Nat := 1000000000

/-- Error message of main.rs line 22 (with the billion count printed). -/
def tooManyMsg : String := "Too many wallets requested. Maximum is 1 billion"

/-- Embedding of the early part of main (main.rs lines 16-151): the
count cap check comes first, then mnemonic parsing and seed generation
(modelled by the external parseSeed argument), then the parallel
generation.  Interactive prompting, the progress bar and file output are
external I/O and not modelled. -/
def run_main (parseSeed : String → Option (List Byte)) (P : Prims) (count : Nat)
    (mnemonic pre : String) (key_type : KeyType) (num_threads : Nat) :
    Except String (List Wallet) :=
  if count > MAX_WALLETS then Except.error tooManyMsg
  else
    match parseSeed mnemonic with
    | none => Except.error "Invalid mnemonic"
    | some seed =>
      match all_wallets P seed count num_threads pre key_type with
      | none => Except.error "worker panicked"
      | some ws => Except.ok ws

theorem count_le_mul_wallets_per_thread (count k : Nat) (hk : 1 ≤ k) :
    count ≤ k * wallets_per_thread count k := by
  unfold wallets_per_thread
  have h2 := Nat.div_add_mod (count + k - 1) k
  have h3 : (count + k - 1) % k < k := Nat.mod_lt _ (by omega)
  omega

theorem worker_count_eq_min (count k t : Nat) (hk : 1 ≤ k) (ht : t < k) :
    worker_count count k t =
      min (wallets_per_thread count k) (count - t * wallets_per_thread count k) := by
  unfold worker_count worker_start
  by_cases h : t = k - 1
  · rw [if_pos h]
    have hle := count_le_mul_wallets_per_thread count k hk
    have hmul : k * wallets_per_thread count k =
        (k - 1) * wallets_per_thread count k + wallets_per_thread count k := by
      have hk' : k = (k - 1) + 1 := by omega
      calc k * wallets_per_thread count k
          = ((k - 1) + 1) * wallets_per_thread count k := by rw [← hk']
        _ = (k - 1) * wallets_per_thread count k + wallets_per_thread count k := by
            rw [Nat.succ_mul]
    subst h
    omega
  · rw [if_neg h]

theorem flatRanges (c n : Nat) :
    ∀ k, (List.range k).flatMap (fun t => List.range' (t * c) (min c (n - t * c))) =
      List.range' 0 (min (k * c) n) := by
  intro k
  induction k with
  | zero => simp
  | succ k ih =>
    rw [List.range_succ, List.flatMap_append, ih, List.flatMap_cons, List.flatMap_nil,
      List.append_nil]
    have hsm : (k + 1) * c = k * c + c := Nat.succ_mul k c
    by_cases hn : n ≤ k * c
    · have h1 : min (k * c) n = n := by omega
      have h2 : min c (n - k * c) = 0 := by omega
      have h3 : min ((k + 1) * c) n = n := by omega
      rw [h1, h2, h3]
      simp
    · have h1 : min (k * c) n = k * c := by omega
      rw [h1]
      have happ := List.range'_append 0 (k * c) (min c (n - k * c)) 1
      simp only [Nat.one_mul, Nat.zero_add] at happ
      rw [happ]
      congr 1
      omega

theorem partitionIndices_eq_range (count k : Nat) (hk : 1 ≤ k) :
    partitionIndices count k = List.range count := by
  unfold partitionIndices
  have hcongr : (List.range k).flatMap
      (fun t => List.range' (worker_start count k t) (worker_count count k t)) =
      (List.range k).flatMap
      (fun t => List.range' (t * wallets_per_thread count k)
        (min (wallets_per_thread count k) (count - t * wallets_per_thread count k))) := by
    unfold List.flatMap
    congr 1
    apply List.map_congr_left
    intro t ht
    rw [worker_count_eq_min count k t hk (List.mem_range.mp ht)]
    rfl
  rw [hcongr, flatRanges (wallets_per_thread count k) count k]
  have hge := count_le_mul_wallets_per_thread count k hk
  have hmin : min (k * wallets_per_thread count k) count = count := by omega
  rw [hmin, List.range_eq_range']

/-- C1: for every totalCount and workerCount at least 1, the per-worker
index ranges, concatenated in worker order, are exactly the list
0, 1, ..., totalCount-1 — contiguous, non-overlapping, gap-free, each
index covered exactly once — and the range lengths sum to totalCount. -/
theorem c1_partition_complete (count num_threads : Nat) (hk : 1 ≤ num_threads) :
    partitionIndices count num_threads = List.range count ∧
    ((List.range num_threads).map (worker_count count num_threads)).sum = count := by
  have hpart := partitionIndices_eq_range count num_threads hk
  refine ⟨hpart, ?_⟩
  have hlen := congrArg List.length hpart
  rw [List.length_range] at hlen
  unfold partitionIndices at hlen
  rw [List.length_flatMap] at hlen
  have hmap : List.map
      (List.length ∘ fun t => List.range' (worker_start count num_threads t)
        (worker_count count num_threads t)) (List.range num_threads) =
      (List.range num_threads).map (worker_count count num_threads) := by
    apply List.map_congr_left
    intro t _
    simp [List.length_range']
  rw [hmap] at hlen
  exact hlen

theorem c1_partition_complete_witness :
    partitionIndices 7 3 = List.range 7 ∧
    ((List.range 3).map (worker_count 7 3)).sum = 7 :=
  c1_partition_complete 7 3 (by decide)

/-- Wallet (or nothing) produced for one index by the secp256k1 loop
body when no panic occurs. -/
def secpAssemble (P : Prims) (seed : List Byte) (hrp : String) (index : Nat) :
    Option Wallet :=
  (secpBody P seed hrp index).getD none

/-- Wallet (or nothing) produced for one index by the ethsecp256k1 loop
body when no panic occurs. -/
def ethAssemble (P : Prims) (seed : List Byte) (hrp : String) (index : Nat) :
    Option Wallet :=
  (ethBody P seed hrp index).getD none

/-- Per-index wallet assembly, dispatched on the key variant. -/
def assembleWallet (P : Prims) (seed : List Byte) (hrp : String)
    (key_type : KeyType) (index : Nat) : Option Wallet :=
  match key_type with
  | .secp256k1 => secpAssemble P seed hrp index
  | .ethsecp256k1 => ethAssemble P seed hrp index

theorem secpBody_eq_assemble (P : Prims) (seed : List Byte) (hrp : String) (i : Nat)
    (hwf : DeriveWF P seed) :
    secpBody P seed hrp i = some (secpAssemble P seed hrp i) := by
  unfold secpAssemble
  cases hd : P.derive seed (pathString i) with
  | none => simp [secpBody, hd]
  | some k =>
    have hfs : P.fromSlice k = true := hwf _ _ hd
    simp only [secpBody, hd, hfs, if_true]
    cases P.bech32Encode hrp (P.ripemd160 (P.sha256 (P.pubCompressed k))) <;> simp

theorem ethBody_eq_assemble (P : Prims) (seed : List Byte) (hrp : String) (i : Nat)
    (hwf : DeriveWF P seed) :
    ethBody P seed hrp i = some (ethAssemble P seed hrp i) := by
  unfold ethAssemble
  cases hd : P.derive seed (pathString i) with
  | none => simp [ethBody, hd]
  | some k =>
    have hfs : P.fromSlice k = true := hwf _ _ hd
    simp only [ethBody, hd, hfs, if_true]
    cases P.bech32Encode hrp ((P.keccak256 ((P.pubUncompressed k).drop 1)).drop 12) <;> simp

theorem batchLoop_eq_filterMap (body : Nat → Option (Option Wallet)) :
    ∀ is : List Nat, (∀ i ∈ is, body i ≠ none) →
      batchLoop body is = some (is.filterMap (fun i => (body i).getD none))
  | [], _ => rfl
  | i :: is, h => by
    have hi := h i (List.mem_cons_self i is)
    have hrest := batchLoop_eq_filterMap body is (fun j hj => h j (List.mem_cons_of_mem i hj))
    cases hbi : body i with
    | none => exact absurd hbi hi
    | some o =>
      cases o with
      | none => simp [batchLoop, hbi, hrest, List.filterMap_cons]
      | some w => simp [batchLoop, hbi, hrest, List.filterMap_cons]

theorem collectJobs_eq_flatMap (job : Nat → Option (List Wallet)) :
    ∀ ts : List Nat, (∀ t ∈ ts, job t ≠ none) →
      collectJobs job ts = some (ts.flatMap (fun t => (job t).getD []))
  | [], _ => rfl
  | t :: ts, h => by
    have ht := h t (List.mem_cons_self t ts)
    have hrest := collectJobs_eq_flatMap job ts (fun u hu => h u (List.mem_cons_of_mem t hu))
    cases hjt : job t with
    | none => exact absurd hjt ht
    | some ws => simp [collectJobs, hjt, hrest]

theorem generate_secp256k1_batch_eq (P : Prims) (seed : List Byte)
    (start_index count : Nat) (pre hrp : String)
    (hwf : DeriveWF P seed) (hh : P.hrpParse pre = some hrp) :
    generate_secp256k1_batch P seed start_index count pre =
      some ((List.range' start_index count).filterMap (secpAssemble P seed hrp)) := by
  unfold generate_secp256k1_batch
  rw [hh]
  show batchLoop (secpBody P seed hrp) (List.range' start_index count) = _
  rw [batchLoop_eq_filterMap _ _
    (fun i _ => by rw [secpBody_eq_assemble P seed hrp i hwf]; exact Option.some_ne_none _)]
  rfl

theorem generate_ethsecp256k1_batch_eq (P : Prims) (seed : List Byte)
    (start_index count : Nat) (pre hrp : String)
    (hwf : DeriveWF P seed) (hh : P.hrpParse pre = some hrp) :
    generate_ethsecp256k1_batch P seed start_index count pre =
      some ((List.range' start_index count).filterMap (ethAssemble P seed hrp)) := by
  unfold generate_ethsecp256k1_batch
  rw [hh]
  show batchLoop (ethBody P seed hrp) (List.range' start_index count) = _
  rw [batchLoop_eq_filterMap _ _
    (fun i _ => by rw [ethBody_eq_assemble P seed hrp i hwf]; exact Option.some_ne_none _)]
  rfl

theorem generate_wallets_batch_eq (P : Prims) (seed : List Byte)
    (start_index count : Nat) (pre hrp : String) (key_type : KeyType)
    (hwf : DeriveWF P seed) (hh : P.hrpParse pre = some hrp) :
    generate_wallets_batch P seed start_index count pre key_type =
      some ((List.range' start_index count).filterMap
        (assembleWallet P seed hrp key_type)) := by
  cases key_type with
  | secp256k1 => exact generate_secp256k1_batch_eq P seed start_index count pre hrp hwf hh
  | ethsecp256k1 => exact generate_ethsecp256k1_batch_eq P seed start_index count pre hrp hwf hh

theorem workerJob_eq (P : Prims) (seed : List Byte) (count num_threads : Nat)
    (pre hrp : String) (key_type : KeyType) (t : Nat)
    (hwf : DeriveWF P seed) (hh : P.hrpParse pre = some hrp) :
    workerJob P seed count num_threads pre key_type t =
      some ((List.range' (worker_start count num_threads t)
        (worker_count count num_threads t)).filterMap
        (assembleWallet P seed hrp key_type)) := by
  unfold workerJob
  by_cases h0 : worker_count count num_threads t = 0
  · rw [if_pos h0, h0]
    rfl
  · rw [if_neg h0]
    exact generate_wallets_batch_eq P seed _ _ pre hrp key_type hwf hh

theorem all_wallets_eq (P : Prims) (seed : List Byte) (count num_threads : Nat)
    (pre hrp : String) (key_type : KeyType)
    (hk : 1 ≤ num_threads) (hwf : DeriveWF P seed) (hh : P.hrpParse pre = some hrp) :
    all_wallets P seed count num_threads pre key_type =
      some ((List.range count).filterMap (assembleWallet P seed hrp key_type)) := by
  unfold all_wallets
  rw [collectJobs_eq_flatMap _ _
    (fun t _ => by
      rw [workerJob_eq P seed count num_threads pre hrp key_type t hwf hh]
      exact Option.some_ne_none _)]
  congr 1
  have hjob : (List.range num_threads).flatMap
      (fun t => (workerJob P seed count num_threads pre key_type t).getD []) =
      (List.range num_threads).flatMap
      (fun t => (List.range' (worker_start count num_threads t)
        (worker_count count num_threads t)).filterMap
        (assembleWallet P seed hrp key_type)) := by
    unfold List.flatMap
    congr 1
    apply List.map_congr_left
    intro t _
    rw [workerJob_eq P seed count num_threads pre hrp key_type t hwf hh]
    rfl
  rw [hjob, ← List.filterMap_flatMap]
  show ((partitionIndices count num_threads).filterMap _) = _
  rw [partitionIndices_eq_range count num_threads hk]

theorem secpAssemble_inv (P : Prims) (seed : List Byte) (hrp : String) (idx : Nat)
    (w : Wallet) (h : secpAssemble P seed hrp idx = some w) :
    ∃ k, P.derive seed (pathString idx) = some k ∧
      P.bech32Encode hrp (P.ripemd160 (P.sha256 (P.pubCompressed k))) = some w.address ∧
      w.evm_address = none ∧
      w.pubkey = P.base64 (P.pubCompressed k) ∧
      w.private_key = hexEncode k ∧
      w.derivation_path = pathString idx := by
  cases hd : P.derive seed (pathString idx) with
  | none => simp [secpAssemble, secpBody, hd] at h
  | some k =>
    by_cases hfs : P.fromSlice k = true
    · simp only [secpAssemble, secpBody, hd, if_pos hfs] at h
      cases hb : P.bech32Encode hrp (P.ripemd160 (P.sha256 (P.pubCompressed k))) with
      | none => rw [hb] at h; simp at h
      | some addr =>
        rw [hb] at h
        simp only [Option.getD_some, Option.some.injEq] at h
        subst h
        exact ⟨k, rfl, hb, rfl, rfl, rfl, rfl⟩
    · simp [secpAssemble, secpBody, hd, hfs] at h

theorem ethAssemble_inv (P : Prims) (seed : List Byte) (hrp : String) (idx : Nat)
    (w : Wallet) (h : ethAssemble P seed hrp idx = some w) :
    ∃ k, P.derive seed (pathString idx) = some k ∧
      P.bech32Encode hrp ((P.keccak256 ((P.pubUncompressed k).drop 1)).drop 12) =
        some w.address ∧
      w.evm_address =
        some ("0x" ++ hexEncode ((P.keccak256 ((P.pubUncompressed k).drop 1)).drop 12)) ∧
      w.pubkey = P.base64 (P.pubCompressed k) ∧
      w.private_key = hexEncode k ∧
      w.derivation_path = pathString idx := by
  cases hd : P.derive seed (pathString idx) with
  | none => simp [ethAssemble, ethBody, hd] at h
  | some k =>
    by_cases hfs : P.fromSlice k = true
    · simp only [ethAssemble, ethBody, hd, if_pos hfs] at h
      cases hb : P.bech32Encode hrp ((P.keccak256 ((P.pubUncompressed k).drop 1)).drop 12) with
      | none => rw [hb] at h; simp at h
      | some addr =>
        rw [hb] at h
        simp only [Option.getD_some, Option.some.injEq] at h
        subst h
        exact ⟨k, rfl, hb, rfl, rfl, rfl, rfl⟩
    · simp [ethAssemble, ethBody, hd, hfs] at h

theorem assembleWallet_path (P : Prims) (seed : List Byte) (hrp : String)
    (key_type : KeyType) (idx : Nat) (w : Wallet)
    (h : assembleWallet P seed hrp key_type idx = some w) :
    w.derivation_path = pathString idx := by
  cases key_type with
  | secp256k1 =>
    obtain ⟨k, -, -, -, -, -, hp⟩ := secpAssemble_inv P seed hrp idx w h
    exact hp
  | ethsecp256k1 =>
    obtain ⟨k, -, -, -, -, -, hp⟩ := ethAssemble_inv P seed hrp idx w h
    exact hp

/-- Concrete primitives used only to witness the theorems at concrete
inputs: every component is a small deterministic function satisfying the
interface hypotheses. -/
def testPrims : Prims where
  derive := fun _ _ => some [0]
  fromSlice := fun _ => true
  pubCompressed := fun _ => []
  pubUncompressed := fun _ => []
  sha256 := fun x => x
  ripemd160 := fun _ => List.replicate 20 0
  keccak256 := fun _ => List.replicate 32 0
  base64 := fun _ => "AAA"
  hrpParse := fun s => if s = "" then none else some s
  bech32Encode := fun h _ => some (h ++ "1q")

/-- The wallet testPrims produces at index 0 under the standard variant. -/
def wallet_secp_test : Wallet :=
  { address := "cosmos1q", evm_address := none, pubkey := "AAA",
    private_key := "00", derivation_path := pathString 0 }

/-- The wallet testPrims produces at index 0 under the eth variant. -/
def wallet_eth_test : Wallet :=
  { address := "cosmos1q",
    evm_address := some ("0x" ++ hexEncode (List.replicate 20 0)),
    pubkey := "AAA", private_key := "00", derivation_path := pathString 0 }

/-- C2: for every seed, total count, key variant and prefix, the
orchestrator's final wallet sequence is the same for every worker count
at least 1 (here compared against a single worker), assuming the
external libraries are deterministic functions — so the output does not
depend on the partitioning.  The hypotheses say the prefix parses and
that derived keys are valid scalars, the regime in which the program
returns at all. -/
theorem c2_thread_determinism (P : Prims) (seed : List Byte) (count num_threads : Nat)
    (pre hrp : String) (key_type : KeyType)
    (hk : 1 ≤ num_threads) (hwf : DeriveWF P seed) (hh : P.hrpParse pre = some hrp) :
    all_wallets P seed count num_threads pre key_type =
      all_wallets P seed count 1 pre key_type := by
  rw [all_wallets_eq P seed count num_threads pre hrp key_type hk hwf hh,
    all_wallets_eq P seed count 1 pre hrp key_type (Nat.le_refl 1) hwf hh]

theorem c2_thread_determinism_witness :
    all_wallets testPrims [] 5 3 "cosmos" KeyType.secp256k1 =
      all_wallets testPrims [] 5 1 "cosmos" KeyType.secp256k1 :=
  c2_thread_determinism testPrims [] 5 3 "cosmos" "cosmos" KeyType.secp256k1
    (by decide) (fun _ _ _ => rfl) (by decide)

/-- C3: the final wallet set is strictly ascending by derivation index:
whenever wallet w comes before wallet w' in the output, the index
rendered in w's derivation path is strictly smaller than the one in
w''s. -/
theorem c3_index_sorted (P : Prims) (seed : List Byte) (count num_threads : Nat)
    (pre hrp : String) (key_type : KeyType)
    (hk : 1 ≤ num_threads) (hwf : DeriveWF P seed) (hh : P.hrpParse pre = some hrp) :
    ∃ ws, all_wallets P seed count num_threads pre key_type = some ws ∧
      ws.Pairwise (fun w w' => ∀ i j, w.derivation_path = pathString i →
        w'.derivation_path = pathString j → i < j) := by
  refine ⟨_, all_wallets_eq P seed count num_threads pre hrp key_type hk hwf hh, ?_⟩
  rw [List.pairwise_filterMap]
  refine (List.pairwise_lt_range count).imp ?_
  intro a b hab w hw w' hw' i j hi hj
  have hwa : assembleWallet P seed hrp key_type a = some w := hw
  have hwb : assembleWallet P seed hrp key_type b = some w' := hw'
  have hpa := assembleWallet_path P seed hrp key_type a w hwa
  have hpb := assembleWallet_path P seed hrp key_type b w' hwb
  have hia : i = a := pathString_inj (hi ▸ hpa)
  have hjb : j = b := pathString_inj (hj ▸ hpb)
  rw [hia, hjb]
  exact hab

theorem c3_index_sorted_witness :
    ∃ ws, all_wallets testPrims [] 4 2 "cosmos" KeyType.ethsecp256k1 = some ws ∧
      ws.Pairwise (fun w w' => ∀ i j, w.derivation_path = pathString i →
        w'.derivation_path = pathString j → i < j) :=
  c3_index_sorted testPrims [] 4 2 "cosmos" "cosmos" KeyType.ethsecp256k1
    (by decide) (fun _ _ _ => rfl) (by decide)

theorem filterMap_eq_filter_ne (f : Nat → Option Wallet) (j : Nat) (hj : f j = none) :
    ∀ l : List Nat, l.filterMap f = (l.filter (fun i => i != j)).filterMap f
  | [] => rfl
  | a :: l => by
    by_cases ha : a = j
    · subst ha
      simp [List.filter_cons, List.filterMap_cons, hj, filterMap_eq_filter_ne f a hj l]
    · have hne : (a != j) = true := by simp [ha]
      simp only [List.filter_cons, hne, if_true, List.filterMap_cons,
        filterMap_eq_filter_ne f j hj l]

/-- C5: when the derivation of index j fails (the scalar is out of curve
range, which the spec identifies with the Err of the derive call), both
batch functions still return normally: the output is exactly the output
over the other indices of the range — the single wallet for j is
dropped, no wallet in the output carries j's derivation path, and the
batch is not aborted. -/
theorem c5_derivation_failure_dropped (P : Prims) (seed : List Byte)
    (start_index count j : Nat) (pre hrp : String)
    (hwf : DeriveWF P seed) (hh : P.hrpParse pre = some hrp)
    (hfail : P.derive seed (pathString j) = none) :
    ∃ ws₁ ws₂,
      generate_secp256k1_batch P seed start_index count pre = some ws₁ ∧
      generate_ethsecp256k1_batch P seed start_index count pre = some ws₂ ∧
      ws₁ = ((List.range' start_index count).filter (fun i => i != j)).filterMap
        (secpAssemble P seed hrp) ∧
      ws₂ = ((List.range' start_index count).filter (fun i => i != j)).filterMap
        (ethAssemble P seed hrp) ∧
      (∀ w ∈ ws₁, w.derivation_path ≠ pathString j) ∧
      (∀ w ∈ ws₂, w.derivation_path ≠ pathString j) := by
  have hs1 : secpAssemble P seed hrp j = none := by simp [secpAssemble, secpBody, hfail]
  have hs2 : ethAssemble P seed hrp j = none := by simp [ethAssemble, ethBody, hfail]
  refine ⟨_, _, generate_secp256k1_batch_eq P seed start_index count pre hrp hwf hh,
    generate_ethsecp256k1_batch_eq P seed start_index count pre hrp hwf hh,
    filterMap_eq_filter_ne _ j hs1 _, filterMap_eq_filter_ne _ j hs2 _, ?_, ?_⟩
  · intro w hw hcontra
    obtain ⟨i, -, hwi⟩ := List.mem_filterMap.mp hw
    obtain ⟨k, -, -, -, -, -, hp⟩ := secpAssemble_inv P seed hrp i w hwi
    have : i = j := pathString_inj (hp ▸ hcontra)
    rw [this, hs1] at hwi
    exact Option.noConfusion hwi
  · intro w hw hcontra
    obtain ⟨i, -, hwi⟩ := List.mem_filterMap.mp hw
    obtain ⟨k, -, -, -, -, -, hp⟩ := ethAssemble_inv P seed hrp i w hwi
    have : i = j := pathString_inj (hp ▸ hcontra)
    rw [this, hs2] at hwi
    exact Option.noConfusion hwi

theorem batchLoop_mem (body : Nat → Option (Option Wallet)) :
    ∀ (is : List Nat) (ws : List Wallet), batchLoop body is = some ws →
      ∀ w ∈ ws, ∃ i ∈ is, body i = some (some w)
  | [], ws, h => by
    intro w hw
    simp only [batchLoop, Option.some.injEq] at h
    rw [← h] at hw
    cases hw
  | i :: is, ws, h => by
    intro w hw
    cases hbi : body i with
    | none => simp [batchLoop, hbi] at h
    | some o =>
      cases hrest : batchLoop body is with
      | none => simp [batchLoop, hbi, hrest] at h
      | some rest =>
        cases o with
        | none =>
          simp only [batchLoop, hbi, hrest, Option.some.injEq] at h
          obtain ⟨i', hi', hb'⟩ := batchLoop_mem body is rest hrest w (by rw [← h] at hw; exact hw)
          exact ⟨i', List.mem_cons_of_mem i hi', hb'⟩
        | some w' =>
          simp only [batchLoop, hbi, hrest, Option.some.injEq] at h
          rw [← h] at hw
          cases hw with
          | head => exact ⟨i, List.mem_cons_self i is, hbi⟩
          | tail _ hw' =>
            obtain ⟨i', hi', hb'⟩ := batchLoop_mem body is rest hrest w hw'
            exact ⟨i', List.mem_cons_of_mem i hi', hb'⟩

theorem secpBody_to_assemble (P : Prims) (seed : List Byte) (hrp : String) (i : Nat)
    (w : Wallet) (h : secpBody P seed hrp i = some (some w)) :
    secpAssemble P seed hrp i = some w := by
  unfold secpAssemble
  rw [h]
  rfl

theorem ethBody_to_assemble (P : Prims) (seed : List Byte) (hrp : String) (i : Nat)
    (w : Wallet) (h : ethBody P seed hrp i = some (some w)) :
    ethAssemble P seed hrp i = some w := by
  unfold ethAssemble
  rw [h]
  rfl

/-- C7: every wallet emitted by the standard batch bech32-encodes exactly
the 20-byte RIPEMD160(SHA256(compressed public key)) of the key derived
at its path, and carries no evm address; every wallet emitted by the
ethsecp256k1 batch bech32-encodes the last 20 bytes of the Keccak256 of
the uncompressed public key stripped of its leading tag byte, and its
evm address is "0x" followed by exactly 40 lowercase hex characters
encoding those same 20 bytes.  The hypotheses state the digest sizes the
hash libraries guarantee. -/
theorem c7_variant_correct (P : Prims) (seed : List Byte) (start_index count : Nat)
    (pre : String) (ws₁ ws₂ : List Wallet)
    (hrip : ∀ x, (P.ripemd160 x).length = 20)
    (hkec : ∀ x, (P.keccak256 x).length = 32)
    (h1 : generate_secp256k1_batch P seed start_index count pre = some ws₁)
    (h2 : generate_ethsecp256k1_batch P seed start_index count pre = some ws₂) :
    (∀ w ∈ ws₁, w.evm_address = none ∧ ∃ hrp k,
      P.hrpParse pre = some hrp ∧
      P.derive seed w.derivation_path = some k ∧
      (P.ripemd160 (P.sha256 (P.pubCompressed k))).length = 20 ∧
      P.bech32Encode hrp (P.ripemd160 (P.sha256 (P.pubCompressed k))) = some w.address) ∧
    (∀ w ∈ ws₂, ∃ hrp k addressBytes,
      P.hrpParse pre = some hrp ∧
      P.derive seed w.derivation_path = some k ∧
      addressBytes = (P.keccak256 ((P.pubUncompressed k).drop 1)).drop 12 ∧
      addressBytes = (P.keccak256 ((P.pubUncompressed k).drop 1)).drop
        ((P.keccak256 ((P.pubUncompressed k).drop 1)).length - 20) ∧
      addressBytes.length = 20 ∧
      P.bech32Encode hrp addressBytes = some w.address ∧
      w.evm_address = some ("0x" ++ hexEncode addressBytes) ∧
      (hexEncode addressBytes).length = 40 ∧
      (∀ c ∈ (hexEncode addressBytes).data, c ∈ HEX_CHARS)) := by
  constructor
  · intro w hw
    unfold generate_secp256k1_batch at h1
    cases hpp : P.hrpParse pre with
    | none => rw [hpp] at h1; exact Option.noConfusion h1
    | some hrp =>
      rw [hpp] at h1
      obtain ⟨i, -, hbody⟩ := batchLoop_mem _ _ _ h1 w hw
      obtain ⟨k, hd, hb, hevm, -, -, hp⟩ :=
        secpAssemble_inv P seed hrp i w (secpBody_to_assemble P seed hrp i w hbody)
      exact ⟨hevm, hrp, k, rfl, by rw [hp]; exact hd, hrip _, hb⟩
  · intro w hw
    unfold generate_ethsecp256k1_batch at h2
    cases hpp : P.hrpParse pre with
    | none => rw [hpp] at h2; exact Option.noConfusion h2
    | some hrp =>
      rw [hpp] at h2
      obtain ⟨i, -, hbody⟩ := batchLoop_mem _ _ _ h2 w hw
      obtain ⟨k, hd, hb, hevm, -, -, hp⟩ :=
        ethAssemble_inv P seed hrp i w (ethBody_to_assemble P seed hrp i w hbody)
      refine ⟨hrp, k, _, rfl, by rw [hp]; exact hd, rfl, ?_, ?_, hb, hevm, ?_, ?_⟩
      · rw [hkec]
      · rw [List.length_drop, hkec]
      · rw [hexEncode_length, List.length_drop, hkec]
      · intro c hc
        exact hexEncodeChars_mem _ c hc

theorem c7_variant_correct_witness : wallet_secp_test.evm_address = none :=
  ((c7_variant_correct testPrims [] 0 1 "cosmos" [wallet_secp_test] [wallet_eth_test]
    (fun _ => rfl) (fun _ => rfl) (by decide) (by decide)).1
    wallet_secp_test (List.mem_singleton.mpr rfl)).1

/-- C8: for every wallet emitted by a batch, hex-decoding its privateKey
field and re-deriving the public key from that scalar (compressed
serialization then base64) reproduces exactly the wallet's pubkey
field. -/
theorem c8_roundtrip (P : Prims) (seed : List Byte) (start_index count : Nat)
    (pre : String) (key_type : KeyType) (ws : List Wallet)
    (h : generate_wallets_batch P seed start_index count pre key_type = some ws) :
    ∀ w ∈ ws, ∃ k, hexDecode w.private_key = some k ∧
      P.base64 (P.pubCompressed k) = w.pubkey := by
  intro w hw
  cases key_type with
  | secp256k1 =>
    unfold generate_wallets_batch generate_secp256k1_batch at h
    cases hpp : P.hrpParse pre with
    | none => rw [hpp] at h; exact Option.noConfusion h
    | some hrp =>
      rw [hpp] at h
      obtain ⟨i, -, hbody⟩ := batchLoop_mem _ _ _ h w hw
      obtain ⟨k, -, -, -, hpub, hpriv, -⟩ :=
        secpAssemble_inv P seed hrp i w (secpBody_to_assemble P seed hrp i w hbody)
      exact ⟨k, by rw [hpriv, hexDecode_hexEncode], hpub.symm⟩
  | ethsecp256k1 =>
    unfold generate_wallets_batch generate_ethsecp256k1_batch at h
    cases hpp : P.hrpParse pre with
    | none => rw [hpp] at h; exact Option.noConfusion h
    | some hrp =>
      rw [hpp] at h
      obtain ⟨i, -, hbody⟩ := batchLoop_mem _ _ _ h w hw
      obtain ⟨k, -, -, -, hpub, hpriv, -⟩ :=
        ethAssemble_inv P seed hrp i w (ethBody_to_assemble P seed hrp i w hbody)
      exact ⟨k, by rw [hpriv, hexDecode_hexEncode], hpub.symm⟩

theorem c8_roundtrip_witness :
    ∃ k, hexDecode wallet_secp_test.private_key = some k ∧
      testPrims.base64 (testPrims.pubCompressed k) = wallet_secp_test.pubkey :=
  c8_roundtrip testPrims [] 0 1 "cosmos" KeyType.secp256k1 [wallet_secp_test]
    (by decide) wallet_secp_test (List.mem_singleton.mpr rfl)

theorem worker0_count_pos (count k : Nat) (hc : 1 ≤ count) (hk : 1 ≤ k) :
    0 < worker_count count k 0 := by
  unfold worker_count worker_start
  by_cases h : (0 : Nat) = k - 1
  · rw [if_pos h]
    simp only [Nat.zero_mul, Nat.sub_zero]
    exact hc
  · rw [if_neg h]
    have hwpt : 0 < wallets_per_thread count k := by
      unfold wallets_per_thread
      exact Nat.div_pos (by omega) (by omega)
    simp only [Nat.zero_mul, Nat.sub_zero, lt_min_iff]
    exact ⟨hwpt, hc⟩

/-- C4: when the prefix is not a valid bech32 human-readable part, both
batch functions fail as a whole at the Hrp parse, before any wallet is
assembled — no partial wallet list is produced — the whole run fails for
every positive requested count, and the standalone encoder reports the
condition as the error value modelling EncodeError::InvalidPrefix. -/
theorem c4_invalid_hrp (P : Prims) (seed private_key : List Byte)
    (start_index count n k : Nat) (pre : String) (key_type : KeyType)
    (hbad : P.hrpParse pre = none) (hkey : P.fromSlice private_key = true)
    (hn : 1 ≤ n) (hk : 1 ≤ k) :
    generate_secp256k1_batch P seed start_index count pre = none ∧
    generate_ethsecp256k1_batch P seed start_index count pre = none ∧
    all_wallets P seed n k pre key_type = none ∧
    generate_addresses P private_key pre key_type = Except.error EncodeError.invalidHrp := by
  have hbatch : ∀ s c, generate_wallets_batch P seed s c pre key_type = none := by
    intro s c
    cases key_type <;>
      simp [generate_wallets_batch, generate_secp256k1_batch,
        generate_ethsecp256k1_batch, hbad]
  refine ⟨by simp [generate_secp256k1_batch, hbad],
    by simp [generate_ethsecp256k1_batch, hbad], ?_, ?_⟩
  · obtain ⟨k', rfl⟩ : ∃ k', k = k' + 1 := ⟨k - 1, by omega⟩
    unfold all_wallets
    rw [List.range_succ_eq_map]
    have hw0 : workerJob P seed n (k' + 1) pre key_type 0 = none := by
      unfold workerJob
      rw [if_neg (Nat.pos_iff_ne_zero.mp (worker0_count_pos n (k' + 1) hn (by omega)))]
      exact hbatch _ _
    simp [collectJobs, hw0]
  · cases key_type <;> simp [generate_addresses, hkey, hbad]

theorem c4_invalid_hrp_witness :
    generate_secp256k1_batch testPrims [] 0 2 "" = none ∧
    generate_ethsecp256k1_batch testPrims [] 0 2 "" = none ∧
    all_wallets testPrims [] 3 2 "" KeyType.secp256k1 = none ∧
    generate_addresses testPrims [0] "" KeyType.secp256k1 =
      Except.error EncodeError.invalidHrp :=
  c4_invalid_hrp testPrims [] [0] 0 2 3 2 "" KeyType.secp256k1
    (by decide) rfl (by decide) (by decide)

/-- Concrete primitives whose derivation fails exactly at index 1, used
to witness the per-index failure recovery. -/
def testPrimsFail : Prims :=
  { testPrims with derive := fun _ path => if path = pathString 1 then none else some [0] }

theorem c5_derivation_failure_dropped_witness :
    ∃ ws₁ ws₂,
      generate_secp256k1_batch testPrimsFail [] 0 3 "cosmos" = some ws₁ ∧
      generate_ethsecp256k1_batch testPrimsFail [] 0 3 "cosmos" = some ws₂ ∧
      ws₁ = ((List.range' 0 3).filter (fun i => i != 1)).filterMap
        (secpAssemble testPrimsFail [] "cosmos") ∧
      ws₂ = ((List.range' 0 3).filter (fun i => i != 1)).filterMap
        (ethAssemble testPrimsFail [] "cosmos") ∧
      (∀ w ∈ ws₁, w.derivation_path ≠ pathString 1) ∧
      (∀ w ∈ ws₂, w.derivation_path ≠ pathString 1) :=
  c5_derivation_failure_dropped testPrimsFail [] 0 3 1 "cosmos" "cosmos"
    (fun _ _ _ => rfl) (by decide) (by decide)

/-- C6 (the claim's arithmetic is false on the code): a worker that
processes a range of length 1 adds 1000 at relative index 0 and then the
remainder 1 after the loop, for a total of 1001, not 1.  In general the
counter overshoots by 1000 whenever the range length is positive and not
a multiple of 1000 (see progress_added_closed_form). -/
theorem c6_progress_overcount : progress_added 1 = 1001 ∧ progress_added 1 ≠ 1 := by
  constructor
  · decide
  · decide

theorem progress_filter_count (L : Nat) :
    ((List.range L).filter (fun i => i % 1000 == 0)).length = (L + 999) / 1000 := by
  induction L with
  | zero => rfl
  | succ L ih =>
    rw [List.range_succ, List.filter_append, List.length_append, ih]
    by_cases h : L % 1000 = 0
    · simp only [List.filter_cons, List.filter_nil, h]
      simp
      omega
    · have hb : (L % 1000 == 0) = false := by simp [h]
      simp only [List.filter_cons, List.filter_nil, hb, Bool.false_eq_true, if_false,
        List.length_nil]
      omega

/-- What a worker of range length L actually adds to the progress
counter: exactly L when L is a multiple of 1000 (including 0), and
L + 1000 otherwise — the counter converges to at least, but not in
general exactly, the requested total. -/
theorem progress_added_closed_form (L : Nat) :
    progress_added L = if L % 1000 = 0 then L else L + 1000 := by
  unfold progress_added
  rw [progress_filter_count]
  by_cases h : L % 1000 = 0
  · rw [if_pos h]
    omega
  · rw [if_neg h]
    omega

/-- C9: any requested count strictly above one billion makes the run
return the count-cap error before the mnemonic is parsed or any wallet
work is dispatched (the outcome is independent of the seed parser and of
every cryptographic primitive), while a count of exactly one billion
passes the cap check. -/
theorem c9_count_cap :
    (∀ parseSeed P count mnemonic pre key_type num_threads, 1000000000 < count →
      run_main parseSeed P count mnemonic pre key_type num_threads =
        Except.error tooManyMsg) ∧
    (∀ parseSeed P mnemonic pre key_type num_threads,
      run_main parseSeed P 1000000000 mnemonic pre key_type num_threads ≠
        Except.error tooManyMsg) := by
  constructor
  · intro parseSeed P count mnemonic pre key_type num_threads hgt
    unfold run_main
    rw [if_pos (show count > MAX_WALLETS from hgt)]
  · intro parseSeed P mnemonic pre key_type num_threads
    unfold run_main
    rw [if_neg (by unfold MAX_WALLETS; omega)]
    intro hcontra
    split at hcontra
    · exact absurd (Except.error.inj hcontra) (by decide)
    · split at hcontra
      · exact absurd (Except.error.inj hcontra) (by decide)
      · exact Except.noConfusion hcontra

theorem c9_count_cap_witness :
    run_main (fun _ => none) testPrims 1000000001 "m" "cosmos" KeyType.secp256k1 4 =
      Except.error tooManyMsg ∧
    run_main (fun _ => none) testPrims 1000000000 "m" "cosmos" KeyType.secp256k1 4 ≠
      Except.error tooManyMsg :=
  ⟨c9_count_cap.1 (fun _ => none) testPrims 1000000001 "m" "cosmos" KeyType.secp256k1 4
      (by norm_num),
    c9_count_cap.2 (fun _ => none) testPrims "m" "cosmos" KeyType.secp256k1 4⟩

/-- C10: for a private key the curve accepts and a prefix that parses,
the standalone generate_addresses returns exactly the tuple (bech32
address, optional evm address, base64 pubkey, hex private key) that the
corresponding batch loop body assembles into the wallet for any index
whose derivation yields that same key — the two encoding paths agree,
for both key variants. -/
theorem c10_paths_agree (P : Prims) (seed private_key : List Byte) (pre hrp : String)
    (index : Nat)
    (hkey : P.fromSlice private_key = true)
    (hh : P.hrpParse pre = some hrp)
    (hder : P.derive seed (pathString index) = some private_key) :
    (∀ a e pb ph, generate_addresses P private_key pre KeyType.secp256k1 =
        Except.ok (a, e, pb, ph) ↔
      secpBody P seed hrp index =
        some (some { address := a, evm_address := e, pubkey := pb,
                     private_key := ph, derivation_path := pathString index })) ∧
    (∀ a e pb ph, generate_addresses P private_key pre KeyType.ethsecp256k1 =
        Except.ok (a, e, pb, ph) ↔
      ethBody P seed hrp index =
        some (some { address := a, evm_address := e, pubkey := pb,
                     private_key := ph, derivation_path := pathString index })) := by
  constructor
  · intro a e pb ph
    cases hb : P.bech32Encode hrp (P.ripemd160 (P.sha256 (P.pubCompressed private_key))) with
    | none =>
      simp [generate_addresses, hkey, hh, hb, secpBody, hder]
    | some addr =>
      simp only [generate_addresses, hkey, if_true, hh, hb, secpBody, hder,
        Except.ok.injEq, Prod.mk.injEq, Option.some.injEq, Wallet.mk.injEq]
      constructor
      · rintro ⟨rfl, rfl, rfl, rfl⟩
        exact ⟨rfl, rfl, rfl, rfl, trivial⟩
      · rintro ⟨rfl, rfl, rfl, rfl, -⟩
        exact ⟨rfl, rfl, rfl, rfl⟩
  · intro a e pb ph
    cases hb : P.bech32Encode hrp
        ((P.keccak256 ((P.pubUncompressed private_key).drop 1)).drop 12) with
    | none =>
      simp [generate_addresses, hkey, hh, secpBody, hder, ethBody,
        ← List.drop_one, hb]
    | some addr =>
      simp only [generate_addresses, hkey, if_true, hh, hb, ethBody, hder,
        Except.ok.injEq, Prod.mk.injEq, Option.some.injEq, Wallet.mk.injEq]
      constructor
      · rintro ⟨rfl, rfl, rfl, rfl⟩
        exact ⟨rfl, rfl, rfl, rfl, trivial⟩
      · rintro ⟨rfl, rfl, rfl, rfl, -⟩
        exact ⟨rfl, rfl, rfl, rfl⟩

theorem c10_paths_agree_witness :
    (generate_addresses testPrims [0] "cosmos" KeyType.secp256k1 =
        Except.ok ("cosmos1q", none, "AAA", "00")) ↔
      secpBody testPrims [] "cosmos" 0 = some (some wallet_secp_test) :=
  (c10_paths_agree testPrims [] [0] "cosmos" "cosmos" 0 rfl (by decide) rfl).1
    "cosmos1q" none "AAA" "00"

end WalletGen
